import Mathlib

/-!
Verification development for the copy-trading bot core:
shallow embeddings of the position-liquidation loop
(`src/ui/services/positionService.ts`), the resolved-position redemption
engine and polling trade emitter (service modules), and the WebSocket
trade monitor (`src/services/wsTradeMonitor.ts`), together with theorems
about their accounting invariants, retry/termination behaviour,
batching, deduplication and watermark semantics.

Numeric JS values are modelled as exact rationals (`ℚ`); counters as `ℕ`.
External effects (order-book fetches, order submissions, on-chain
transactions, database contents) are passed in explicitly as event
traces or oracle functions, so every run of the embedded code is a pure
computation over its inputs.
-/

namespace CopyBot

/-! ## Position liquidation (`closePosition` in positionService.ts) -/

/-- One level of the bid side of an order book (`price`, `size` are
parsed from strings with `parseFloat` in the source; modelled as `ℚ`). -/
structure BookLevel where
  price : ℚ
  size : ℚ
deriving DecidableEq, Repr

/-- The distinct error messages `closePosition` can place in
`SellResult.error`.  `noBids` stands for the literal string
`'No bids available in order book'` (the spec's `NoLiquidity`),
`couldNotSellAll` for `'Could not sell all tokens. ... remaining.'`. -/
inductive SellError where
  | invalidPercentage
  | positionNotFound
  | belowMinimum
  | noBids
  | couldNotSellAll
deriving DecidableEq, Repr

/-- Mirror of the `SellResult` interface. -/
structure SellResult where
  success : Bool
  tokensSold : ℚ
  tokensRemaining : ℚ
  totalValue : ℚ
  error : Option SellError
deriving DecidableEq, Repr

/-- The mutable locals of the sell loop: `remaining`, `totalSold`,
`totalValue`, `retry` (lines 105-108 of positionService.ts). -/
structure LoopState where
  remaining : ℚ
  totalSold : ℚ
  totalValue : ℚ
  retry : ℕ
deriving DecidableEq, Repr

/-- Outcome of `postOrder` for one submitted order: the venue confirms
(`resp.success === true`), rejects (`resp.success` falsy), or the
`createMarketOrder`/`postOrder` call throws. -/
inductive PostOutcome where
  | ok
  | rejected
  | threw
deriving DecidableEq, Repr

/-- What the environment does in one iteration of the sell loop:
either `getOrderBook` throws, or it returns a book with the given bid
levels and the subsequent order submission has the given outcome
(ignored when the bid list is empty, since the code returns first). -/
inductive LoopEvent where
  | fetchError
  | book (bids : List BookLevel) (post : PostOutcome)
deriving DecidableEq, Repr

/-- `orderBook.bids.reduce((max, bid) => parseFloat(bid.price) > parseFloat(max.price) ? bid : max, orderBook.bids[0])`:
the entry with the numerically highest price, first-seen winning ties;
`none` exactly when the bid list is empty. -/
def maxPriceBid : List BookLevel → Option BookLevel
  | [] => none
  | b :: bs => some ((b :: bs).foldl (fun m x => if m.price < x.price then x else m) b)

/-- Loop guard of `while (remaining > 0.01 && retry < RETRY_LIMIT)`. -/
def loopCond (R : ℕ) (s : LoopState) : Bool :=
  decide ((1/100 : ℚ) < s.remaining ∧ s.retry < R)

/-- The result object built at lines 165-171 when the loop exits
normally. -/
def finalResult (s : LoopState) : SellResult :=
  { success := decide (0 < s.totalSold)
    tokensSold := s.totalSold
    tokensRemaining := s.remaining
    totalValue := s.totalValue
    error := if (1/100 : ℚ) < s.remaining then some .couldNotSellAll else none }

/-- The early-return result at lines 115-123 when the fetched book has
no bids. -/
def noBidsResult (s : LoopState) : SellResult :=
  { success := decide (0 < s.totalSold)
    tokensSold := s.totalSold
    tokensRemaining := s.remaining
    totalValue := s.totalValue
    error := some .noBids }

/-- One iteration of the loop body (lines 111-162), given the
environment's event: either a new state (`Sum.inl`) or an early return
(`Sum.inr`). -/
def step (s : LoopState) : LoopEvent → Sum LoopState SellResult
  | .fetchError => .inl { s with retry := s.retry + 1 }
  | .book bids post =>
    match maxPriceBid bids with
    | none => .inr (noBidsResult s)
    | some best =>
      let orderAmount := min s.remaining best.size
      match post with
      | .ok => .inl { remaining := s.remaining - orderAmount
                      totalSold := s.totalSold + orderAmount
                      totalValue := s.totalValue + orderAmount * best.price
                      retry := 0 }
      | .rejected => .inl { s with retry := s.retry + 1 }
      | .threw => .inl { s with retry := s.retry + 1 }

/-- Run the sell loop on a trace of environment events.  Returns the
final loop state together with the returned `SellResult`; the result is
`none` when the trace is exhausted while the loop guard still holds
(the real run would perform further iterations). -/
def runLoop (R : ℕ) : LoopState → List LoopEvent → LoopState × Option SellResult
  | s, [] => (s, if loopCond R s then none else some (finalResult s))
  | s, e :: es =>
    if loopCond R s then
      match step s e with
      | .inl s' => runLoop R s' es
      | .inr r => (s, some r)
    else (s, some (finalResult s))

/-- The sequence of loop states after each completed iteration of the
run (early returns and guard exits contribute no further states). -/
def runTrace (R : ℕ) : LoopState → List LoopEvent → List LoopState
  | _, [] => []
  | s, e :: es =>
    if loopCond R s then
      match step s e with
      | .inl s' => s' :: runTrace R s' es
      | .inr _ => []
    else []

/-- Mirror of the `Position` interface fields used by `closePosition`. -/
structure Position where
  asset : String
  conditionId : String
  size : ℚ
  avgPrice : ℚ
  currentValue : ℚ
deriving DecidableEq, Repr

/-- `closePosition(asset, percentage)` over a fetched position list and
an event trace for the sell loop (validation, position lookup and dust
check at lines 56-91, then the loop). -/
def closePosition (R : ℕ) (positions : List Position) (asset : String)
    (percentage : ℚ) (events : List LoopEvent) : Option SellResult :=
  if percentage < 0 ∨ 100 < percentage then
    some ⟨false, 0, 0, 0, some .invalidPercentage⟩
  else
    match positions.find? (fun p => p.asset == asset) with
    | none => some ⟨false, 0, 0, 0, some .positionNotFound⟩
    | some position =>
      let sellSize := position.size * (percentage / 100)
      if sellSize < 1/100 then
        some ⟨false, 0, position.size, 0, some .belowMinimum⟩
      else (runLoop R ⟨sellSize, 0, 0, 0⟩ events).2

/-- All bid levels carried by an event have nonnegative size (order
books report available size, which is never negative). -/
def nonnegSizes : LoopEvent → Prop
  | .fetchError => True
  | .book bids _ => ∀ b ∈ bids, 0 ≤ b.size

/-- An iteration whose fill attempt fails: `getOrderBook` throws, or the
book is nonempty and the submission is rejected or throws. -/
def isFailureEvent : LoopEvent → Prop
  | .fetchError => True
  | .book bids post => bids ≠ [] ∧ (post = .rejected ∨ post = .threw)

theorem foldl_maxPrice_mem (l : List BookLevel) (b : BookLevel) :
    l.foldl (fun m x => if m.price < x.price then x else m) b = b ∨
      l.foldl (fun m x => if m.price < x.price then x else m) b ∈ l := by
  induction l generalizing b with
  | nil => exact Or.inl rfl
  | cons x xs ih =>
    simp only [List.foldl_cons]
    rcases ih (if b.price < x.price then x else b) with h | h
    · rw [h]
      by_cases hc : b.price < x.price
      · simp [hc]
      · simp [hc]
    · exact Or.inr (List.mem_cons_of_mem x h)

theorem maxPriceBid_mem {bids : List BookLevel} {best : BookLevel}
    (h : maxPriceBid bids = some best) : best ∈ bids := by
  cases bids with
  | nil => simp [maxPriceBid] at h
  | cons b bs =>
    simp only [maxPriceBid, Option.some.injEq] at h
    rcases foldl_maxPrice_mem (b :: bs) b with h' | h'
    · rw [← h, h']; exact List.mem_cons_self b bs
    · rw [← h]; exact h'

theorem step_inl_sum {s s' : LoopState} {e : LoopEvent}
    (h : step s e = .inl s') :
    s'.totalSold + s'.remaining = s.totalSold + s.remaining := by
  cases e with
  | fetchError =>
    simp only [step, Sum.inl.injEq] at h
    rw [← h]
  | book bids post =>
    cases hb : maxPriceBid bids with
    | none => simp [step, hb] at h
    | some best =>
      cases post with
      | ok =>
        simp only [step, hb, Sum.inl.injEq] at h
        rw [← h]; ring
      | rejected => simp only [step, hb, Sum.inl.injEq] at h; rw [← h]
      | threw => simp only [step, hb, Sum.inl.injEq] at h; rw [← h]

theorem step_inr_sum {s : LoopState} {r : SellResult} {e : LoopEvent}
    (h : step s e = .inr r) :
    r.tokensSold + r.tokensRemaining = s.totalSold + s.remaining := by
  cases e with
  | fetchError => simp [step] at h
  | book bids post =>
    cases hb : maxPriceBid bids with
    | none =>
      simp only [step, hb, Sum.inr.injEq] at h
      rw [← h]; rfl
    | some best => cases post <;> simp [step, hb] at h

theorem step_inl_remaining_le {R : ℕ} {s s' : LoopState} {e : LoopEvent}
    (hc : loopCond R s = true) (hn : nonnegSizes e)
    (h : step s e = .inl s') : s'.remaining ≤ s.remaining := by
  have hrem : (1/100 : ℚ) < s.remaining := by
    have := of_decide_eq_true hc
    exact this.1
  cases e with
  | fetchError =>
    simp only [step, Sum.inl.injEq] at h
    rw [← h]
  | book bids post =>
    cases hb : maxPriceBid bids with
    | none => simp [step, hb] at h
    | some best =>
      have hsz : 0 ≤ best.size := hn best (maxPriceBid_mem hb)
      cases post with
      | ok =>
        simp only [step, hb, Sum.inl.injEq] at h
        rw [← h]
        have h0 : 0 ≤ min s.remaining best.size := by
          apply le_min
          · linarith
          · exact hsz
        simp only
        linarith
      | rejected => simp only [step, hb, Sum.inl.injEq] at h; rw [← h]
      | threw => simp only [step, hb, Sum.inl.injEq] at h; rw [← h]

theorem runLoop_sum (R : ℕ) (s : LoopState) (es : List LoopEvent) :
    (runLoop R s es).1.totalSold + (runLoop R s es).1.remaining =
      s.totalSold + s.remaining ∧
    ∀ r, (runLoop R s es).2 = some r →
      r.tokensSold + r.tokensRemaining = s.totalSold + s.remaining := by
  induction es generalizing s with
  | nil =>
    refine ⟨rfl, ?_⟩
    intro r hr
    simp only [runLoop] at hr
    by_cases hc : loopCond R s = true
    · simp [hc] at hr
    · simp only [Bool.not_eq_true] at hc
      simp only [hc, Bool.false_eq_true, if_false, Option.some.injEq] at hr
      rw [← hr]; rfl
  | cons e es ih =>
    by_cases hc : loopCond R s = true
    · cases hs : step s e with
      | inl s' =>
        have heq : runLoop R s (e :: es) = runLoop R s' es := by
          simp [runLoop, hc, hs]
        rw [heq]
        have := ih s'
        have hsum := step_inl_sum hs
        constructor
        · rw [this.1, hsum]
        · intro r hr
          rw [this.2 r hr, hsum]
      | inr r0 =>
        have heq : runLoop R s (e :: es) = (s, some r0) := by
          simp [runLoop, hc, hs]
        rw [heq]
        refine ⟨rfl, ?_⟩
        intro r hr
        simp only [Option.some.injEq] at hr
        rw [← hr]
        exact step_inr_sum hs
    · simp only [Bool.not_eq_true] at hc
      have heq : runLoop R s (e :: es) = (s, some (finalResult s)) := by
        simp [runLoop, hc]
      rw [heq]
      refine ⟨rfl, ?_⟩
      intro r hr
      simp only [Option.some.injEq] at hr
      rw [← hr]; rfl

theorem runTrace_sum (R : ℕ) (s : LoopState) (es : List LoopEvent) :
    ∀ u ∈ runTrace R s es, u.totalSold + u.remaining = s.totalSold + s.remaining := by
  induction es generalizing s with
  | nil => intro u hu; simp [runTrace] at hu
  | cons e es ih =>
    intro u hu
    by_cases hc : loopCond R s = true
    · cases hs : step s e with
      | inl s' =>
        simp only [runTrace, hc, if_true, hs] at hu
        have hsum := step_inl_sum hs
        rcases List.mem_cons.mp hu with h | h
        · rw [h, hsum]
        · rw [ih s' u h, hsum]
      | inr r0 => simp [runTrace, hc, hs] at hu
    · simp only [Bool.not_eq_true] at hc
      simp [runTrace, hc] at hu

theorem runTrace_chain (R : ℕ) (s : LoopState) (es : List LoopEvent)
    (hn : ∀ e ∈ es, nonnegSizes e) :
    List.Chain (fun a b => b.remaining ≤ a.remaining) s (runTrace R s es) := by
  induction es generalizing s with
  | nil => simp [runTrace]
  | cons e es ih =>
    by_cases hc : loopCond R s = true
    · cases hs : step s e with
      | inl s' =>
        have heq : runTrace R s (e :: es) = s' :: runTrace R s' es := by
          simp [runTrace, hc, hs]
        rw [heq]
        exact List.Chain.cons
          (step_inl_remaining_le hc (hn e (List.mem_cons_self e es)) hs)
          (ih s' (fun e' he' => hn e' (List.mem_cons_of_mem e he')))
      | inr r0 =>
        have heq : runTrace R s (e :: es) = [] := by
          simp [runTrace, hc, hs]
        rw [heq]
        exact List.Chain.nil
    · simp only [Bool.not_eq_true] at hc
      have heq : runTrace R s (e :: es) = [] := by
        simp [runTrace, hc]
      rw [heq]
      exact List.Chain.nil

theorem step_failure {s : LoopState} {e : LoopEvent} (hf : isFailureEvent e) :
    step s e = .inl { s with retry := s.retry + 1 } := by
  cases e with
  | fetchError => rfl
  | book bids post =>
    obtain ⟨hne, hpost⟩ := hf
    cases bids with
    | nil => exact absurd rfl hne
    | cons b bs =>
      rcases hpost with h | h <;> subst h <;> simp [step, maxPriceBid]

theorem runLoop_all_failures (R : ℕ) (s : LoopState) (es rest : List LoopEvent)
    (hf : ∀ e ∈ es, isFailureEvent e) (hlen : s.retry + es.length = R)
    (hrem : (1/100 : ℚ) < s.remaining) :
    runLoop R s (es ++ rest) =
      ({ s with retry := R }, some (finalResult { s with retry := R })) := by
  induction es generalizing s with
  | nil =>
    simp only [List.length_nil, Nat.add_zero] at hlen
    have hc : loopCond R s = false := by
      simp only [loopCond, decide_eq_false_iff_not, not_and]
      intro _
      omega
    have hs : ({ s with retry := R } : LoopState) = s := by
      cases s
      simp only at hlen
      simp [hlen]
    rw [hs]
    cases rest with
    | nil => simp [runLoop, hc]
    | cons e es' => simp [runLoop, hc]
  | cons e es ih =>
    have hc : loopCond R s = true := by
      simp only [loopCond, decide_eq_true_eq]
      refine ⟨hrem, ?_⟩
      simp only [List.length_cons] at hlen
      omega
    have hstep := step_failure (s := s) (hf e (List.mem_cons_self e es))
    have heq : runLoop R s ((e :: es) ++ rest) =
        runLoop R { s with retry := s.retry + 1 } (es ++ rest) := by
      simp [runLoop, hc, hstep]
    rw [heq]
    have := ih { s with retry := s.retry + 1 }
      (fun e' he' => hf e' (List.mem_cons_of_mem e he'))
      (by simp only [List.length_cons] at hlen; simp; omega) hrem
    rw [this]

/-- C1: in every execution of `closePosition` that reaches the sell
loop with requested size `sellSize`, for every event trace (order-book
fetches and order outcomes), the equality
`totalSold + remaining = sellSize` holds after every loop iteration, in
the final loop state, and in any returned `SellResult`
(`tokensSold + tokensRemaining = sellSize`); and, provided the book
levels carry nonnegative sizes, `remaining` never increases from one
iteration to the next. -/
theorem closePosition_loop_accounting (R : ℕ) (sellSize : ℚ)
    (es : List LoopEvent) (hn : ∀ e ∈ es, nonnegSizes e) :
    (∀ u ∈ runTrace R ⟨sellSize, 0, 0, 0⟩ es,
        u.totalSold + u.remaining = sellSize) ∧
    (runLoop R ⟨sellSize, 0, 0, 0⟩ es).1.totalSold +
        (runLoop R ⟨sellSize, 0, 0, 0⟩ es).1.remaining = sellSize ∧
    (∀ r, (runLoop R ⟨sellSize, 0, 0, 0⟩ es).2 = some r →
        r.tokensSold + r.tokensRemaining = sellSize) ∧
    List.Chain (fun a b => b.remaining ≤ a.remaining) ⟨sellSize, 0, 0, 0⟩
      (runTrace R ⟨sellSize, 0, 0, 0⟩ es) := by
  have hsum := runLoop_sum R ⟨sellSize, 0, 0, 0⟩ es
  have htr := runTrace_sum R ⟨sellSize, 0, 0, 0⟩ es
  refine ⟨?_, ?_, ?_, runTrace_chain R ⟨sellSize, 0, 0, 0⟩ es hn⟩
  · intro u hu
    have := htr u hu
    simpa using this
  · simpa using hsum.1
  · intro r hr
    have := hsum.2 r hr
    simpa using this

/-- Witness for C1 at a concrete run: requested size 50, one successful
fill of 30 at price 3/5, then the trace ends. -/
theorem closePosition_loop_accounting_witness :
    (∀ e ∈ [LoopEvent.book [⟨3/5, 30⟩] .ok], nonnegSizes e) ∧
    (∀ u ∈ runTrace 3 ⟨50, 0, 0, 0⟩ [LoopEvent.book [⟨3/5, 30⟩] .ok],
        u.totalSold + u.remaining = 50) ∧
    (runLoop 3 ⟨50, 0, 0, 0⟩ [LoopEvent.book [⟨3/5, 30⟩] .ok]).1.totalSold +
        (runLoop 3 ⟨50, 0, 0, 0⟩ [LoopEvent.book [⟨3/5, 30⟩] .ok]).1.remaining = 50 ∧
    (∀ r, (runLoop 3 ⟨50, 0, 0, 0⟩ [LoopEvent.book [⟨3/5, 30⟩] .ok]).2 = some r →
        r.tokensSold + r.tokensRemaining = 50) ∧
    List.Chain (fun a b => b.remaining ≤ a.remaining) ⟨50, 0, 0, 0⟩
      (runTrace 3 ⟨50, 0, 0, 0⟩ [LoopEvent.book [⟨3/5, 30⟩] .ok]) := by
  have hn : ∀ e ∈ [LoopEvent.book [⟨3/5, 30⟩] .ok], nonnegSizes e := by
    intro e he
    simp only [List.mem_singleton] at he
    subst he
    intro b hb
    simp only [List.mem_singleton] at hb
    subst hb
    norm_num
  exact ⟨hn, closePosition_loop_accounting 3 50 [LoopEvent.book [⟨3/5, 30⟩] .ok] hn⟩

/-- C2: for every retry limit `R ≥ 1`, a failed attempt (rejection or
thrown transport error) increments the retry counter by exactly one; a
confirmed success resets it to 0; and from a state with counter 0,
`R` consecutive failed attempts terminate the loop exactly there — the
events after the `R`-th failure are never consumed. -/
theorem closePosition_retry_exhaustion :
    (∀ (s : LoopState) (e : LoopEvent), isFailureEvent e →
        step s e = .inl { s with retry := s.retry + 1 }) ∧
    (∀ (s s' : LoopState) (bids : List BookLevel), bids ≠ [] →
        step s (.book bids .ok) = .inl s' → s'.retry = 0) ∧
    (∀ (R : ℕ) (s : LoopState) (es rest : List LoopEvent), 1 ≤ R →
        s.retry = 0 → (∀ e ∈ es, isFailureEvent e) → es.length = R →
        (1/100 : ℚ) < s.remaining →
        runLoop R s (es ++ rest) =
          ({ s with retry := R }, some (finalResult { s with retry := R }))) := by
  refine ⟨fun s e hf => step_failure hf, ?_, ?_⟩
  · intro s s' bids hne hstep
    cases bids with
    | nil => exact absurd rfl hne
    | cons b bs =>
      simp only [step, maxPriceBid, Sum.inl.injEq] at hstep
      rw [← hstep]
  · intro R s es rest hR h0 hf hlen hrem
    exact runLoop_all_failures R s es rest hf (by omega) hrem

/-- Witness for C2 at a concrete run: retry limit 2, two consecutive
transport failures exhaust the loop; a third pending event is ignored. -/
theorem closePosition_retry_exhaustion_witness :
    isFailureEvent .fetchError ∧
    ([LoopEvent.fetchError, LoopEvent.fetchError] ≠ []) ∧
    runLoop 2 ⟨50, 0, 0, 0⟩
        ([LoopEvent.fetchError, LoopEvent.fetchError] ++ [LoopEvent.book [⟨3/5, 30⟩] .ok]) =
      (⟨50, 0, 0, 2⟩, some (finalResult ⟨50, 0, 0, 2⟩)) := by
  have hf : ∀ e ∈ [LoopEvent.fetchError, LoopEvent.fetchError], isFailureEvent e := by
    intro e he
    simp only [List.mem_cons, List.not_mem_nil, or_false] at he
    rcases he with h | h <;> (subst h; trivial)
  refine ⟨trivial, by simp, ?_⟩
  have := closePosition_retry_exhaustion.2.2 2 ⟨50, 0, 0, 0⟩
    [LoopEvent.fetchError, LoopEvent.fetchError] [LoopEvent.book [⟨3/5, 30⟩] .ok]
    (by norm_num) rfl hf rfl (by norm_num)
  exact this

/-- C3: the concrete scenario — position of size 100, percentage 50
(requested 50), first book has best bid 30 at 3/5 = 0.60, second has
25 at 11/20 = 0.55, both submissions succeed — returns
`tokensSold = 50`, `tokensRemaining = 0`, `totalValue = 29`,
`success = true`; and the best bid is the entry with the highest price,
first-seen winning ties. -/
theorem closePosition_concrete_run :
    closePosition 3 [⟨"tok", "cond", 100, 1/2, 60⟩] "tok" 50
        [.book [⟨3/5, 30⟩] .ok, .book [⟨11/20, 25⟩] .ok]
      = some ⟨true, 50, 0, 29, none⟩ ∧
    maxPriceBid [⟨3/5, 30⟩, ⟨3/5, 25⟩, ⟨1/2, 10⟩] = some ⟨3/5, 30⟩ := by
  constructor
  · norm_num [closePosition, runLoop, step, loopCond, maxPriceBid,
      finalResult, List.find?]
  · norm_num [maxPriceBid]

/-- C9: whenever the fetched order book has an empty bid side while the
loop guard holds, the loop returns immediately with
`success = (0 < totalSold)`, `tokensSold`/`tokensRemaining`/`totalValue`
taken unchanged from the loop state, and the no-liquidity error; the
remaining events are never consumed. -/
theorem closePosition_no_liquidity (R : ℕ) (s : LoopState)
    (post : PostOutcome) (es : List LoopEvent)
    (hc : loopCond R s = true) :
    runLoop R s (.book [] post :: es) =
      (s, some { success := decide (0 < s.totalSold)
                 tokensSold := s.totalSold
                 tokensRemaining := s.remaining
                 totalValue := s.totalValue
                 error := some .noBids }) := by
  have hstep : step s (.book [] post) = .inr (noBidsResult s) := by
    simp [step, maxPriceBid]
  simp [runLoop, hc, hstep, noBidsResult]

/-- Witness for C9: an empty bid list on the first lookup for a
requested sell of 50 yields `success = false`, `tokensSold = 0`,
`tokensRemaining = 50`, error `noBids`. -/
theorem closePosition_no_liquidity_witness :
    loopCond 3 ⟨50, 0, 0, 0⟩ = true ∧
    runLoop 3 ⟨50, 0, 0, 0⟩ [.book [] .ok] =
      (⟨50, 0, 0, 0⟩, some ⟨false, 0, 50, 0, some .noBids⟩) := by
  have hc : loopCond 3 ⟨50, 0, 0, 0⟩ = true := by
    simp only [loopCond, decide_eq_true_eq]
    norm_num
  refine ⟨hc, ?_⟩
  rw [closePosition_no_liquidity 3 ⟨50, 0, 0, 0⟩ .ok [] hc]
  norm_num

/-! ## Resolved-position redemption (`redeemAllResolved` in the
redemption service module) -/

/-- Mirror of the redemption module's `Position` interface fields used
by `redeemAllResolved` (`title`, `slug`, `redeemable` are optional in
the source). -/
structure RPosition where
  asset : String
  conditionId : String
  size : ℚ
  avgPrice : ℚ
  currentValue : ℚ
  curPrice : ℚ
  title : Option String
  slug : Option String
  redeemable : Option Bool
deriving DecidableEq, Repr

/-- Mirror of one entry of `RedeemResult.details`. -/
structure RedeemDetail where
  conditionId : String
  title : String
  success : Bool
  value : ℚ
  error : Option String
deriving DecidableEq, Repr

/-- Mirror of the `RedeemResult` interface. -/
structure RedeemResult where
  success : Bool
  redeemedCount : ℕ
  failedCount : ℕ
  totalValue : ℚ
  error : Option String
  details : List RedeemDetail
deriving DecidableEq, Repr

/-- `loadPositions` keeps positions with `(pos.size || 0) > ZERO_THRESHOLD`
(0.0001), and `redeemAllResolved` then keeps those with
`curPrice >= 0.99 || curPrice <= 0.01` and `redeemable === true`. -/
def redeemablePositionsOf (fetched : List RPosition) : List RPosition :=
  (fetched.filter (fun p => decide ((1/10000 : ℚ) < p.size))).filter
    (fun p => (decide ((99/100 : ℚ) ≤ p.curPrice) || decide (p.curPrice ≤ (1/100 : ℚ)))
      && p.redeemable == some true)

/-- One step of building the `positionsByCondition` map
(`Map<string, Position[]>`, insertion order of first occurrence
preserved; members appended in encounter order). -/
def insertByCondition (m : List (String × List RPosition)) (p : RPosition) :
    List (String × List RPosition) :=
  if m.any (fun kv => kv.1 == p.conditionId) then
    m.map (fun kv => if kv.1 == p.conditionId then (kv.1, kv.2 ++ [p]) else kv)
  else m ++ [(p.conditionId, [p])]

/-- `positionsByCondition` built by the `forEach` at lines 339-344. -/
def groupByCondition (ps : List RPosition) : List (String × List RPosition) :=
  ps.foldl insertByCondition []

/-- `positions[0].title || positions[0].slug || conditionId` (JS
falsiness of the empty string included). -/
def titleOf (cid : String) (ps : List RPosition) : String :=
  match ps with
  | [] => cid
  | p :: _ =>
    match p.title with
    | some t => if t = "" then (match p.slug with
        | some sl => if sl = "" then cid else sl
        | none => cid) else t
    | none =>
      match p.slug with
      | some sl => if sl = "" then cid else sl
      | none => cid

/-- The detail record pushed for one group, given the on-chain outcome
oracle (`none` = confirmed receipt, `some err` = revert or thrown
error text). -/
def detailOf (outcome : String → Option String) (g : String × List RPosition) :
    RedeemDetail :=
  let totalPositionValue := (g.2.map (fun p => p.currentValue)).sum
  match outcome g.1 with
  | none => ⟨g.1, titleOf g.1 g.2, true, totalPositionValue, none⟩
  | some err => ⟨g.1, titleOf g.1 g.2, false, totalPositionValue, some err⟩

/-- The `for` loop over `positionsByCondition.entries()` (lines
346-379), threading the accumulated `result`. -/
def processGroups (outcome : String → Option String)
    (groups : List (String × List RPosition)) (init : RedeemResult) :
    RedeemResult :=
  groups.foldl
    (fun res g =>
      let totalPositionValue := (g.2.map (fun p => p.currentValue)).sum
      match outcome g.1 with
      | none =>
        { res with
          redeemedCount := res.redeemedCount + 1
          totalValue := res.totalValue + totalPositionValue
          details := res.details ++ [⟨g.1, titleOf g.1 g.2, true, totalPositionValue, none⟩] }
      | some err =>
        { res with
          failedCount := res.failedCount + 1
          details := res.details ++ [⟨g.1, titleOf g.1 g.2, false, totalPositionValue, some err⟩] })
    init

/-- The sequence of transaction payloads: the loop calls
`redeemPosition(ctfContract, positions[0])` for each group in iteration
order. -/
def redeemAttempts (rs : List RPosition) : List (Option RPosition) :=
  (groupByCondition rs).map (fun g => g.2.head?)

/-- `redeemAllResolved()` over the fetched position list and the
on-chain outcome oracle. -/
def redeemAllResolved (outcome : String → Option String)
    (fetched : List RPosition) : RedeemResult :=
  let redeemablePositions := redeemablePositionsOf fetched
  if redeemablePositions.isEmpty then
    { success := true, redeemedCount := 0, failedCount := 0, totalValue := 0
      error := some "No positions to redeem", details := [] }
  else
    let res := processGroups outcome (groupByCondition redeemablePositions)
      { success := false, redeemedCount := 0, failedCount := 0, totalValue := 0
        error := none, details := [] }
    { res with success := decide (0 < res.redeemedCount) || decide (res.failedCount = 0) }

/-- First-occurrence deduplication, the order a JS `Map` keeps its keys
in: expressed independently through Mathlib's `dedup` (which keeps last
occurrences) of the reversed list. -/
def firstDedup (l : List String) : List String :=
  l.reverse.dedup.reverse

theorem firstDedup_append_singleton (l : List String) (a : String) :
    firstDedup (l ++ [a]) =
      if a ∈ l then firstDedup l else firstDedup l ++ [a] := by
  unfold firstDedup
  rw [List.reverse_append, List.reverse_singleton, List.singleton_append]
  by_cases h : a ∈ l
  · rw [List.dedup_cons_of_mem (List.mem_reverse.mpr h), if_pos h]
  · rw [List.dedup_cons_of_not_mem (fun hc => h (List.mem_reverse.mp hc)), if_neg h,
      List.reverse_cons]

theorem mem_firstDedup {a : String} {l : List String} :
    a ∈ firstDedup l ↔ a ∈ l := by
  unfold firstDedup
  rw [List.mem_reverse, List.mem_dedup, List.mem_reverse]

theorem nodup_firstDedup (l : List String) : (firstDedup l).Nodup := by
  unfold firstDedup
  exact List.nodup_reverse.mpr (List.nodup_dedup _)

theorem any_key_eq_mem (m : List (String × List RPosition)) (c : String) :
    m.any (fun kv => kv.1 == c) = true ↔ c ∈ m.map Prod.fst := by
  simp only [List.any_eq_true, List.mem_map, beq_iff_eq]

theorem insertByCondition_keys (m : List (String × List RPosition)) (p : RPosition) :
    (insertByCondition m p).map Prod.fst =
      if p.conditionId ∈ m.map Prod.fst then m.map Prod.fst
      else m.map Prod.fst ++ [p.conditionId] := by
  unfold insertByCondition
  by_cases h : p.conditionId ∈ m.map Prod.fst
  · rw [if_pos ((any_key_eq_mem m p.conditionId).mpr h), if_pos h, List.map_map]
    apply List.map_congr_left
    intro kv _
    by_cases hk : kv.1 = p.conditionId
    · simp [Function.comp, hk]
    · simp [Function.comp, hk]
  · have hany : m.any (fun kv => kv.1 == p.conditionId) = false := by
      rw [← Bool.not_eq_true]
      intro hc
      exact h ((any_key_eq_mem m p.conditionId).mp hc)
    rw [hany, if_neg h]
    simp

theorem groupByCondition_append (ps : List RPosition) (p : RPosition) :
    groupByCondition (ps ++ [p]) = insertByCondition (groupByCondition ps) p := by
  unfold groupByCondition
  rw [List.foldl_append]
  rfl

theorem groupByCondition_keys (ps : List RPosition) :
    (groupByCondition ps).map Prod.fst =
      firstDedup (ps.map (fun p => p.conditionId)) := by
  induction ps using List.reverseRecOn with
  | nil => rfl
  | append_singleton ps p ih =>
    rw [groupByCondition_append, insertByCondition_keys]
    simp only [List.map_append, List.map_cons, List.map_nil]
    rw [firstDedup_append_singleton, ih]
    simp only [mem_firstDedup]

theorem mem_groupByCondition_keys {c : String} {ps : List RPosition} :
    c ∈ (groupByCondition ps).map Prod.fst ↔
      c ∈ ps.map (fun p => p.conditionId) := by
  rw [groupByCondition_keys, mem_firstDedup]

theorem groupByCondition_eq_filter (ps : List RPosition) :
    ∀ kv ∈ groupByCondition ps,
      kv.2 = ps.filter (fun q => q.conditionId == kv.1) := by
  induction ps using List.reverseRecOn with
  | nil => intro kv hkv; simp [groupByCondition] at hkv
  | append_singleton ps p ih =>
    intro kv hkv
    rw [groupByCondition_append] at hkv
    unfold insertByCondition at hkv
    by_cases h : p.conditionId ∈ (groupByCondition ps).map Prod.fst
    · rw [if_pos ((any_key_eq_mem _ _).mpr h)] at hkv
      obtain ⟨kv0, hkv0, heq⟩ := List.mem_map.mp hkv
      by_cases hk : kv0.1 = p.conditionId
      · rw [if_pos (beq_iff_eq.mpr hk)] at heq
        rw [← heq]
        simp only [List.filter_append]
        rw [← ih kv0 hkv0, hk]
        have : p.conditionId == p.conditionId := beq_iff_eq.mpr rfl
        simp [this]
      · rw [if_neg (fun hc => hk (beq_iff_eq.mp hc))] at heq
        rw [← heq]
        simp only [List.filter_append]
        rw [← ih kv0 hkv0]
        have : (p.conditionId == kv0.1) = false := by
          rw [beq_eq_false_iff_ne]
          exact fun hc => hk hc.symm
        simp [this]
    · have hany : (groupByCondition ps).any (fun kv => kv.1 == p.conditionId) = false := by
        rw [← Bool.not_eq_true]
        intro hc
        exact h ((any_key_eq_mem _ _).mp hc)
      rw [hany] at hkv
      simp only [Bool.false_eq_true, if_false] at hkv
      rcases List.mem_append.mp hkv with hmem | hmem
      · rw [ih kv hmem]
        simp only [List.filter_append]
        have hne : kv.1 ≠ p.conditionId := by
          intro hc
          apply h
          rw [← hc]
          exact List.mem_map.mpr ⟨kv, hmem, rfl⟩
        have : (p.conditionId == kv.1) = false := by
          rw [beq_eq_false_iff_ne]
          exact fun hc => hne hc.symm
        simp [this]
      · simp only [List.mem_singleton] at hmem
        subst hmem
        simp only [List.filter_append]
        have hfilter : ps.filter (fun q => q.conditionId == p.conditionId) = [] := by
          rw [List.filter_eq_nil_iff]
          intro q hq hc
          apply h
          rw [mem_groupByCondition_keys]
          exact List.mem_map.mpr ⟨q, hq, beq_iff_eq.mp hc⟩
        rw [hfilter]
        have : p.conditionId == p.conditionId := beq_iff_eq.mpr rfl
        simp [this]

theorem processGroups_details (outcome : String → Option String)
    (groups : List (String × List RPosition)) (init : RedeemResult) :
    (processGroups outcome groups init).details =
      init.details ++ groups.map (detailOf outcome) := by
  induction groups generalizing init with
  | nil => simp [processGroups]
  | cons g gs ih =>
    unfold processGroups detailOf
    simp only [List.foldl_cons]
    cases houtcome : outcome g.1 with
    | none =>
      rw [show (List.foldl _ _ gs = processGroups outcome gs _) from rfl, ih]
      simp [detailOf, houtcome]
    | some err =>
      rw [show (List.foldl _ _ gs = processGroups outcome gs _) from rfl, ih]
      simp [detailOf, houtcome]

theorem detailOf_conditionId (outcome : String → Option String)
    (g : String × List RPosition) : (detailOf outcome g).conditionId = g.1 := by
  unfold detailOf
  cases outcome g.1 <;> rfl

theorem detailOf_value (outcome : String → Option String)
    (g : String × List RPosition) :
    (detailOf outcome g).value = (g.2.map (fun p => p.currentValue)).sum := by
  unfold detailOf
  cases outcome g.1 <;> rfl

theorem redeemAllResolved_details (outcome : String → Option String)
    (ps : List RPosition) :
    (redeemAllResolved outcome ps).details =
      (groupByCondition (redeemablePositionsOf ps)).map (detailOf outcome) := by
  unfold redeemAllResolved
  by_cases h : (redeemablePositionsOf ps).isEmpty
  · rw [if_pos h]
    have he : redeemablePositionsOf ps = [] := List.isEmpty_iff.mp h
    rw [he]
    rfl
  · rw [if_neg h]
    simp only
    rw [processGroups_details]
    rfl

/-- C4: for every fetched position list and on-chain outcome oracle,
`redeemAllResolved` attempts exactly one redemption per distinct
condition id among the redeemable positions — the per-batch details
list carries those condition ids without repetition, in first-insertion
order (`firstDedup`); each batch's transaction payload is the first
member position of its group; and each per-batch result reports the
aggregate current value of the whole group. -/
theorem redeemAll_batching (outcome : String → Option String)
    (ps : List RPosition) :
    (redeemAllResolved outcome ps).details.map (fun d => d.conditionId) =
      firstDedup ((redeemablePositionsOf ps).map (fun p => p.conditionId)) ∧
    ((redeemAllResolved outcome ps).details.map (fun d => d.conditionId)).Nodup ∧
    (∀ c, c ∈ (redeemAllResolved outcome ps).details.map (fun d => d.conditionId) ↔
        c ∈ (redeemablePositionsOf ps).map (fun p => p.conditionId)) ∧
    (∀ d ∈ (redeemAllResolved outcome ps).details,
        d.value = (((redeemablePositionsOf ps).filter
          (fun q => q.conditionId == d.conditionId)).map (fun p => p.currentValue)).sum) ∧
    redeemAttempts (redeemablePositionsOf ps) =
      (firstDedup ((redeemablePositionsOf ps).map (fun p => p.conditionId))).map
        (fun c => ((redeemablePositionsOf ps).filter
          (fun q => q.conditionId == c)).head?) := by
  have hkeys : (redeemAllResolved outcome ps).details.map (fun d => d.conditionId) =
      firstDedup ((redeemablePositionsOf ps).map (fun p => p.conditionId)) := by
    rw [redeemAllResolved_details, List.map_map]
    have : ((fun d : RedeemDetail => d.conditionId) ∘ detailOf outcome) =
        fun g : String × List RPosition => (detailOf outcome g).conditionId := rfl
    rw [this]
    have hcong : (groupByCondition (redeemablePositionsOf ps)).map
        (fun g => (detailOf outcome g).conditionId) =
        (groupByCondition (redeemablePositionsOf ps)).map Prod.fst :=
      List.map_congr_left (fun g _ => detailOf_conditionId outcome g)
    rw [hcong, groupByCondition_keys]
  refine ⟨hkeys, ?_, ?_, ?_, ?_⟩
  · rw [hkeys]
    exact nodup_firstDedup _
  · intro c
    rw [hkeys, mem_firstDedup]
  · intro d hd
    rw [redeemAllResolved_details] at hd
    obtain ⟨g, hg, heq⟩ := List.mem_map.mp hd
    rw [← heq, detailOf_value, detailOf_conditionId,
      ← groupByCondition_eq_filter (redeemablePositionsOf ps) g hg]
  · unfold redeemAttempts
    have hcong : (groupByCondition (redeemablePositionsOf ps)).map
        (fun g => g.2.head?) =
        (groupByCondition (redeemablePositionsOf ps)).map
          (fun g => ((redeemablePositionsOf ps).filter
            (fun q => q.conditionId == g.1)).head?) :=
      List.map_congr_left (fun g hg => by
        rw [← groupByCondition_eq_filter (redeemablePositionsOf ps) g hg])
    rw [hcong, ← groupByCondition_keys, List.map_map]
    rfl

/-- Witness for C4 at a concrete input: three redeemable positions with
condition ids A, A, B; the oracle fails A. -/
theorem redeemAll_batching_witness :
    (redeemAllResolved (fun c => if c == "A" then some "Transaction reverted" else none)
        [⟨"a1", "A", 1, 0, 10, 1, none, none, some true⟩,
         ⟨"a2", "A", 1, 0, 5, 1, none, none, some true⟩,
         ⟨"b", "B", 1, 0, 7, 1, none, none, some true⟩]).details.map
      (fun d => d.conditionId) =
      firstDedup (((redeemablePositionsOf
        [⟨"a1", "A", 1, 0, 10, 1, none, none, some true⟩,
         ⟨"a2", "A", 1, 0, 5, 1, none, none, some true⟩,
         ⟨"b", "B", 1, 0, 7, 1, none, none, some true⟩])).map
        (fun p => p.conditionId)) := by
  exact (redeemAll_batching
    (fun c => if c == "A" then some "Transaction reverted" else none)
    [⟨"a1", "A", 1, 0, 10, 1, none, none, some true⟩,
     ⟨"a2", "A", 1, 0, 5, 1, none, none, some true⟩,
     ⟨"b", "B", 1, 0, 7, 1, none, none, some true⟩]).1

/-- C5: the returned `success` flag always equals
`redeemedCount > 0 || failedCount == 0`; the details list has the same
length whatever the per-group outcomes are (one group's failure never
aborts the remaining groups); and the concrete {A, A, B} scenario with
A reverting and B succeeding yields `redeemedCount = 1`,
`failedCount = 1`, `success = true`. -/
theorem redeemAll_success_flag (outcome outcome' : String → Option String)
    (ps : List RPosition) :
    ((redeemAllResolved outcome ps).success =
      (decide (0 < (redeemAllResolved outcome ps).redeemedCount) ||
        decide ((redeemAllResolved outcome ps).failedCount = 0))) ∧
    ((redeemAllResolved outcome ps).details.length =
      (redeemAllResolved outcome' ps).details.length) ∧
    redeemAllResolved (fun c => if c == "A" then some "Transaction reverted" else none)
        [⟨"a1", "A", 1, 0, 10, 1, none, none, some true⟩,
         ⟨"a2", "A", 1, 0, 5, 1, none, none, some true⟩,
         ⟨"b", "B", 1, 0, 7, 1, none, none, some true⟩] =
      ⟨true, 1, 1, 7, none,
        [⟨"A", "A", false, 15, some "Transaction reverted"⟩,
         ⟨"B", "B", true, 7, none⟩]⟩ := by
  refine ⟨?_, ?_, ?_⟩
  · unfold redeemAllResolved
    by_cases h : (redeemablePositionsOf ps).isEmpty
    · rw [if_pos h]
      rfl
    · rw [if_neg h]
  · rw [redeemAllResolved_details, redeemAllResolved_details,
      List.length_map, List.length_map]
  · have hrs : redeemablePositionsOf
          [⟨"a1", "A", 1, 0, 10, 1, none, none, some true⟩,
           ⟨"a2", "A", 1, 0, 5, 1, none, none, some true⟩,
           ⟨"b", "B", 1, 0, 7, 1, none, none, some true⟩] =
          [⟨"a1", "A", 1, 0, 10, 1, none, none, some true⟩,
           ⟨"a2", "A", 1, 0, 5, 1, none, none, some true⟩,
           ⟨"b", "B", 1, 0, 7, 1, none, none, some true⟩] := by
      norm_num [redeemablePositionsOf, List.filter]
    have hg : groupByCondition
          [⟨"a1", "A", 1, 0, 10, 1, none, none, some true⟩,
           ⟨"a2", "A", 1, 0, 5, 1, none, none, some true⟩,
           ⟨"b", "B", 1, 0, 7, 1, none, none, some true⟩] =
        [("A", [⟨"a1", "A", 1, 0, 10, 1, none, none, some true⟩,
                ⟨"a2", "A", 1, 0, 5, 1, none, none, some true⟩]),
         ("B", [⟨"b", "B", 1, 0, 7, 1, none, none, some true⟩])] := by
      simp +decide [groupByCondition, insertByCondition]
    simp only [redeemAllResolved, hrs, hg]
    simp +decide [processGroups, titleOf]
    norm_num

/-- C10: when no position passes the redeemable filter,
`redeemAllResolved` returns `success = true` while the `error` field is
simultaneously set to the string `'No positions to redeem'`: a
non-empty `error` does not imply failure. -/
theorem redeemAll_no_positions (outcome : String → Option String)
    (ps : List RPosition) (h : redeemablePositionsOf ps = []) :
    redeemAllResolved outcome ps =
      ⟨true, 0, 0, 0, some "No positions to redeem", []⟩ ∧
    (redeemAllResolved outcome ps).success = true ∧
    (redeemAllResolved outcome ps).error ≠ none := by
  have hres : redeemAllResolved outcome ps =
      ⟨true, 0, 0, 0, some "No positions to redeem", []⟩ := by
    unfold redeemAllResolved
    rw [h]
    rfl
  refine ⟨hres, ?_, ?_⟩
  · rw [hres]
  · rw [hres]
    simp

/-- Witness for C10: an empty fetched position list. -/
theorem redeemAll_no_positions_witness :
    redeemablePositionsOf [] = [] ∧
    redeemAllResolved (fun _ => none) [] =
      ⟨true, 0, 0, 0, some "No positions to redeem", []⟩ := by
  refine ⟨rfl, (redeemAll_no_positions (fun _ => none) [] rfl).1⟩

/-! ## WebSocket trade monitor (`wsTradeMonitor.ts`) -/

/-- The monitor's reconnection-relevant state: `reconnectAttempts` and
`useFallback`. -/
structure WsState where
  reconnectAttempts : ℕ
  useFallback : Bool
deriving DecidableEq, Repr

/-- The observable effect of one `scheduleReconnect()` call: the new
state, the delay passed to `setTimeout` (if a reconnect was scheduled),
and whether a `fallback` event was emitted. -/
structure ReconnectEffect where
  state : WsState
  scheduledDelay : Option ℕ
  fallbackEmitted : Bool
deriving DecidableEq, Repr

/-- `scheduleReconnect()` (lines 287-312): early return in fallback
mode; flip to fallback and emit once the attempt counter has reached
the maximum; otherwise schedule a reconnect after
`WS_RECONNECT_DELAY * 2 ** reconnectAttempts` and increment the
counter. -/
def scheduleReconnect (maxAttempts base : ℕ) (s : WsState) : ReconnectEffect :=
  if s.useFallback then ⟨s, none, false⟩
  else if maxAttempts ≤ s.reconnectAttempts then
    ⟨{ s with useFallback := true }, none, true⟩
  else
    ⟨{ s with reconnectAttempts := s.reconnectAttempts + 1 },
      some (base * 2 ^ s.reconnectAttempts), false⟩

/-- `resetFallback()` (lines 347-350). -/
def resetFallback (_ : WsState) : WsState := ⟨0, false⟩

/-- A stored user-activity record, with the fields `storeTrade` writes
(`bot` is created `false`; the WebSocket path never updates records). -/
structure Activity where
  transactionHash : String
  timestamp : ℕ
  size : ℚ
  usdcSize : ℚ
  price : ℚ
  bot : Bool
deriving DecidableEq, Repr

/-- The payload fields `storeTrade` reads (`timestamp` is the parsed
Unix-seconds value of `payload.timestamp`; `size` and `price` the
`parseFloat` of their string fields). -/
structure WsPayload where
  transaction_hash : String
  timestamp : ℕ
  size : ℚ
  price : ℚ
deriving DecidableEq, Repr

/-- `storeTrade` (lines 189-257) acting on one address's collection:
skip if the trade is older than the freshness cutoff; skip if a record
with the same transaction hash already exists; otherwise insert a new
record (marked `bot := false`). -/
def storeTrade (cutoff : ℕ) (store : List Activity) (p : WsPayload) :
    List Activity :=
  if p.timestamp < cutoff then store
  else if store.any (fun a => a.transactionHash == p.transaction_hash) then store
  else store ++ [⟨p.transaction_hash, p.timestamp, p.size, p.size * p.price,
    p.price, false⟩]

/-- C7: in the reconnection policy, the delay scheduled before attempt
`i` equals `base * 2 ^ i` and the counter becomes `i + 1`; the first
call at the configured maximum flips into fallback mode and emits the
`fallback` event; any call while in fallback mode changes nothing and
emits nothing (so the event fires exactly once and no further attempts
happen); `resetFallback()` clears the flag and the counter. -/
theorem wsMonitor_reconnect_policy (maxAttempts base : ℕ) (s : WsState) :
    (s.useFallback = false → s.reconnectAttempts < maxAttempts →
      scheduleReconnect maxAttempts base s =
        ⟨⟨s.reconnectAttempts + 1, false⟩,
          some (base * 2 ^ s.reconnectAttempts), false⟩) ∧
    (s.useFallback = false → maxAttempts ≤ s.reconnectAttempts →
      scheduleReconnect maxAttempts base s =
        ⟨⟨s.reconnectAttempts, true⟩, none, true⟩) ∧
    (s.useFallback = true →
      scheduleReconnect maxAttempts base s = ⟨s, none, false⟩) ∧
    resetFallback s = ⟨0, false⟩ := by
  refine ⟨?_, ?_, ?_, rfl⟩
  · intro hf hlt
    unfold scheduleReconnect
    rw [hf]
    simp only [Bool.false_eq_true, if_false]
    rw [if_neg (by omega)]
  · intro hf hle
    unfold scheduleReconnect
    rw [hf]
    simp only [Bool.false_eq_true, if_false]
    rw [if_pos hle]
  · intro hf
    unfold scheduleReconnect
    rw [hf]
    simp

/-- Witness for C7: base 1000, maximum 10, third attempt (counter 2)
schedules a 4000 ms delay; at counter 10 the monitor flips to fallback
once; further calls are inert; reset clears everything. -/
theorem wsMonitor_reconnect_policy_witness :
    scheduleReconnect 10 1000 ⟨2, false⟩ = ⟨⟨3, false⟩, some 4000, false⟩ ∧
    scheduleReconnect 10 1000 ⟨10, false⟩ = ⟨⟨10, true⟩, none, true⟩ ∧
    scheduleReconnect 10 1000 ⟨10, true⟩ = ⟨⟨10, true⟩, none, false⟩ ∧
    resetFallback ⟨10, true⟩ = ⟨0, false⟩ := by
  have h1 := (wsMonitor_reconnect_policy 10 1000 ⟨2, false⟩).1 rfl (by decide)
  have h2 := (wsMonitor_reconnect_policy 10 1000 ⟨10, false⟩).2.1 rfl (by decide)
  have h3 := (wsMonitor_reconnect_policy 10 1000 ⟨10, true⟩).2.2.1 rfl
  refine ⟨?_, h2, h3, rfl⟩
  rw [h1]
  norm_num

/-- C8: presenting the same transaction hash twice results in exactly
one stored observation — a second `storeTrade` with the same payload is
a no-op, and a fresh (not-too-old, unseen-hash) insert leaves exactly
one record with that hash; moreover `storeTrade` only ever appends, so
an observation is never updated after creation. -/
theorem wsMonitor_store_dedup (cutoff : ℕ) (store : List Activity)
    (p : WsPayload)
    (hfresh : cutoff ≤ p.timestamp)
    (hnew : store.all (fun a => a.transactionHash != p.transaction_hash)) :
    storeTrade cutoff (storeTrade cutoff store p) p = storeTrade cutoff store p ∧
    ((storeTrade cutoff store p).filter
      (fun a => a.transactionHash == p.transaction_hash)).length = 1 ∧
    (∀ q : WsPayload, ∃ tail : List Activity,
      storeTrade cutoff store q = store ++ tail) := by
  have hts : ¬ p.timestamp < cutoff := by omega
  have hany : store.any (fun a => a.transactionHash == p.transaction_hash) = false := by
    rw [← Bool.not_eq_true, List.any_eq_true]
    rintro ⟨a, ha, hc⟩
    have := List.all_eq_true.mp hnew a ha
    simp only [bne_iff_ne, ne_eq] at this
    exact this (beq_iff_eq.mp hc)
  have hins : storeTrade cutoff store p =
      store ++ [⟨p.transaction_hash, p.timestamp, p.size, p.size * p.price,
        p.price, false⟩] := by
    unfold storeTrade
    rw [if_neg hts, hany]
    simp
  refine ⟨?_, ?_, ?_⟩
  · rw [hins]
    unfold storeTrade
    rw [if_neg hts]
    have : (store ++ [(⟨p.transaction_hash, p.timestamp, p.size,
        p.size * p.price, p.price, false⟩ : Activity)]).any
        (fun a => a.transactionHash == p.transaction_hash) = true := by
      simp [List.any_append]
    rw [this]
    simp
  · rw [hins, List.filter_append]
    have hnil : store.filter (fun a => a.transactionHash == p.transaction_hash) = [] := by
      rw [List.filter_eq_nil_iff]
      intro a ha hc
      have := List.all_eq_true.mp hnew a ha
      simp only [bne_iff_ne, ne_eq] at this
      exact this (beq_iff_eq.mp hc)
    rw [hnil]
    simp
  · intro q
    unfold storeTrade
    by_cases h1 : q.timestamp < cutoff
    · exact ⟨[], by rw [if_pos h1, List.append_nil]⟩
    · by_cases h2 : store.any (fun a => a.transactionHash == q.transaction_hash) = true
      · exact ⟨[], by rw [if_neg h1, if_pos h2, List.append_nil]⟩
      · refine ⟨[⟨q.transaction_hash, q.timestamp, q.size, q.size * q.price,
          q.price, false⟩], ?_⟩
        rw [if_neg h1]
        rw [Bool.not_eq_true] at h2
        rw [h2]
        simp

/-- Witness for C8: inserting the hash `h1` twice into a store holding
one other record. -/
theorem wsMonitor_store_dedup_witness :
    (100 ≤ 500) ∧
    ([(⟨"h0", 200, 1, 1, 1, false⟩ : Activity)].all
      (fun a => a.transactionHash != "h1")) ∧
    storeTrade 100 (storeTrade 100 [⟨"h0", 200, 1, 1, 1, false⟩]
        ⟨"h1", 500, 2, 3⟩) ⟨"h1", 500, 2, 3⟩ =
      storeTrade 100 [⟨"h0", 200, 1, 1, 1, false⟩] ⟨"h1", 500, 2, 3⟩ ∧
    ((storeTrade 100 [⟨"h0", 200, 1, 1, 1, false⟩]
        ⟨"h1", 500, 2, 3⟩).filter
      (fun a => a.transactionHash == "h1")).length = 1 := by
  have h := wsMonitor_store_dedup 100 [⟨"h0", 200, 1, 1, 1, false⟩]
    ⟨"h1", 500, 2, 3⟩ (by decide) (by simp)
  exact ⟨by omega, by simp, h.1, h.2.1⟩

/-! ## Polling fallback (`TradeEventEmitter.checkForNewTrades`) -/

/-- A stored observation as seen by the polling fallback: its identity
(`_id`), the `bot` flag, and the timestamp. -/
structure Obs where
  id : ℕ
  bot : Bool
  timestamp : ℕ
deriving DecidableEq, Repr

/-- Stable insertion into a timestamp-descending list (an element is
placed after all entries with an equal or larger timestamp). -/
def insertByTs (o : Obs) : List Obs → List Obs
  | [] => [o]
  | x :: xs => if x.timestamp < o.timestamp then o :: x :: xs else x :: insertByTs o xs

/-- Stable sort by timestamp descending, modelling the database's
`sort({ timestamp: -1 })`. -/
def sortByTsDesc (l : List Obs) : List Obs :=
  l.foldl (fun acc o => insertByTs o acc) []

/-- The per-address query at lines 72-79: bot-executed observations
newer than the watermark, sorted by timestamp descending, limited to
10. -/
def queryNew (last : ℕ) (coll : List Obs) : List Obs :=
  (sortByTsDesc (coll.filter (fun o => o.bot && decide (last < o.timestamp)))).take 10

/-- The per-cycle gathering loop over tracked addresses (`none` models
an address whose collection does not exist yet and is skipped). -/
def gatherTrades (last : ℕ) (db : List (Option (List Obs))) : List Obs :=
  db.foldl
    (fun acc c =>
      match c with
      | none => acc
      | some coll => acc ++ queryNew last coll)
    []

/-- One cycle of `checkForNewTrades` on watermark `last`: gather per
address, sort all gathered trades descending, emit those newer than the
watermark, and advance the watermark to
`Math.max(last, ...timestamps)` when anything was gathered.  Returns
(emitted observations, new watermark). -/
def checkForNewTrades (last : ℕ) (db : List (Option (List Obs))) :
    List Obs × ℕ :=
  let trades := gatherTrades last db
  let emitted := (sortByTsDesc trades).filter (fun t => decide (last < t.timestamp))
  let last' := if trades.length = 0 then last
    else trades.foldl (fun m t => max m t.timestamp) last
  (emitted, last')

theorem insertByTs_perm (o : Obs) (l : List Obs) :
    (insertByTs o l).Perm (o :: l) := by
  induction l with
  | nil => exact List.Perm.refl _
  | cons x xs ih =>
    unfold insertByTs
    by_cases h : x.timestamp < o.timestamp
    · rw [if_pos h]
    · rw [if_neg h]
      exact (ih.cons x).trans (List.Perm.swap o x xs)

theorem sortByTsDesc_perm (l : List Obs) : (sortByTsDesc l).Perm l := by
  suffices h : ∀ acc : List Obs,
      (l.foldl (fun acc o => insertByTs o acc) acc).Perm (l.reverse ++ acc) by
    have := h []
    rw [List.append_nil] at this
    exact this.trans (List.reverse_perm l)
  induction l with
  | nil => intro acc; exact List.Perm.refl _
  | cons x xs ih =>
    intro acc
    simp only [List.foldl_cons, List.reverse_cons, List.append_assoc,
      List.singleton_append]
    exact (ih (insertByTs x acc)).trans
      (List.perm_append_left_iff _ |>.mpr (insertByTs_perm x acc))

theorem mem_sortByTsDesc {o : Obs} {l : List Obs} :
    o ∈ sortByTsDesc l ↔ o ∈ l :=
  (sortByTsDesc_perm l).mem_iff

theorem length_sortByTsDesc (l : List Obs) :
    (sortByTsDesc l).length = l.length :=
  (sortByTsDesc_perm l).length_eq

theorem mem_queryNew {o : Obs} {last : ℕ} {coll : List Obs}
    (h : o ∈ queryNew last coll) :
    o ∈ coll ∧ o.bot = true ∧ last < o.timestamp := by
  unfold queryNew at h
  have h1 : o ∈ sortByTsDesc (coll.filter
      (fun o => o.bot && decide (last < o.timestamp))) := List.take_subset _ _ h
  rw [mem_sortByTsDesc] at h1
  have h2 := List.mem_filter.mp h1
  refine ⟨h2.1, ?_, ?_⟩
  · exact (Bool.and_eq_true _ _ |>.mp h2.2).1
  · exact of_decide_eq_true (Bool.and_eq_true _ _ |>.mp h2.2).2

theorem queryNew_complete {last : ℕ} {coll : List Obs}
    (hlen : (coll.filter (fun o => o.bot && decide (last < o.timestamp))).length ≤ 10)
    {o : Obs} (ho : o ∈ coll) (hbot : o.bot = true) (hts : last < o.timestamp) :
    o ∈ queryNew last coll := by
  unfold queryNew
  rw [List.take_of_length_le (by rw [length_sortByTsDesc]; exact hlen)]
  rw [mem_sortByTsDesc]
  exact List.mem_filter.mpr ⟨ho, by rw [hbot, decide_eq_true hts]; rfl⟩

theorem mem_gatherTrades {o : Obs} {last : ℕ} {db : List (Option (List Obs))} :
    o ∈ gatherTrades last db ↔
      ∃ coll, some coll ∈ db ∧ o ∈ queryNew last coll := by
  suffices h : ∀ acc : List Obs,
      (o ∈ db.foldl
        (fun acc c => match c with
          | none => acc
          | some coll => acc ++ queryNew last coll) acc ↔
      o ∈ acc ∨ ∃ coll, some coll ∈ db ∧ o ∈ queryNew last coll) by
    have := h []
    simpa [gatherTrades] using this
  induction db with
  | nil => intro acc; simp
  | cons c cs ih =>
    intro acc
    cases c with
    | none =>
      simp only [List.foldl_cons]
      rw [ih acc]
      constructor
      · rintro (h | ⟨coll, hc, ho⟩)
        · exact Or.inl h
        · exact Or.inr ⟨coll, List.mem_cons_of_mem _ hc, ho⟩
      · rintro (h | ⟨coll, hc, ho⟩)
        · exact Or.inl h
        · rcases List.mem_cons.mp hc with heq | hmem
          · exact absurd heq (by simp)
          · exact Or.inr ⟨coll, hmem, ho⟩
    | some coll0 =>
      simp only [List.foldl_cons]
      rw [ih (acc ++ queryNew last coll0)]
      constructor
      · rintro (h | ⟨coll, hc, ho⟩)
        · rcases List.mem_append.mp h with h' | h'
          · exact Or.inl h'
          · exact Or.inr ⟨coll0, List.mem_cons_self _ _, h'⟩
        · exact Or.inr ⟨coll, List.mem_cons_of_mem _ hc, ho⟩
      · rintro (h | ⟨coll, hc, ho⟩)
        · exact Or.inl (List.mem_append.mpr (Or.inl h))
        · rcases List.mem_cons.mp hc with heq | hmem
          · rcases Option.some.injEq _ _ ▸ heq with h'
            exact Or.inl (List.mem_append.mpr (Or.inr (by
              rw [Option.some_inj.mp heq] at ho
              exact ho)))
          · exact Or.inr ⟨coll, hmem, ho⟩

theorem le_foldl_max (l : List Obs) (a : ℕ) :
    a ≤ l.foldl (fun m t => max m t.timestamp) a := by
  induction l generalizing a with
  | nil => exact Nat.le_refl a
  | cons x xs ih =>
    simp only [List.foldl_cons]
    exact Nat.le_trans (Nat.le_max_left a x.timestamp) (ih _)

theorem mem_le_foldl_max {o : Obs} {l : List Obs} (h : o ∈ l) (a : ℕ) :
    o.timestamp ≤ l.foldl (fun m t => max m t.timestamp) a := by
  induction l generalizing a with
  | nil => simp at h
  | cons x xs ih =>
    simp only [List.foldl_cons]
    rcases List.mem_cons.mp h with heq | hmem
    · subst heq
      exact Nat.le_trans (Nat.le_max_right a o.timestamp) (le_foldl_max xs _)
    · exact ih hmem _

theorem foldl_max_attained (l : List Obs) (a : ℕ) :
    l.foldl (fun m t => max m t.timestamp) a = a ∨
      ∃ o ∈ l, l.foldl (fun m t => max m t.timestamp) a = o.timestamp := by
  induction l generalizing a with
  | nil => exact Or.inl rfl
  | cons x xs ih =>
    simp only [List.foldl_cons]
    rcases ih (max a x.timestamp) with h | ⟨o, ho, h⟩
    · rw [h]
      rcases Nat.le_total a x.timestamp with hle | hle
      · exact Or.inr ⟨x, List.mem_cons_self x xs, Nat.max_eq_right hle⟩
      · exact Or.inl (Nat.max_eq_left hle)
    · exact Or.inr ⟨o, List.mem_cons_of_mem x ho, h⟩

theorem checkForNewTrades_fst (last : ℕ) (db : List (Option (List Obs))) :
    (checkForNewTrades last db).1 =
      (sortByTsDesc (gatherTrades last db)).filter
        (fun t => decide (last < t.timestamp)) := rfl

theorem checkForNewTrades_snd (last : ℕ) (db : List (Option (List Obs))) :
    (checkForNewTrades last db).2 =
      if (gatherTrades last db).length = 0 then last
      else (gatherTrades last db).foldl (fun m t => max m t.timestamp) last := rfl

theorem mem_gatherTrades_lt {t : Obs} {last : ℕ} {db : List (Option (List Obs))}
    (h : t ∈ gatherTrades last db) : last < t.timestamp := by
  obtain ⟨coll, _, hq⟩ := mem_gatherTrades.mp h
  exact (mem_queryNew hq).2.2

theorem mem_checkForNewTrades_iff {t : Obs} {last : ℕ}
    {db : List (Option (List Obs))} :
    t ∈ (checkForNewTrades last db).1 ↔ t ∈ gatherTrades last db := by
  rw [checkForNewTrades_fst]
  constructor
  · intro h
    exact mem_sortByTsDesc.mp (List.mem_filter.mp h).1
  · intro h
    exact List.mem_filter.mpr
      ⟨mem_sortByTsDesc.mpr h, decide_eq_true (mem_gatherTrades_lt h)⟩

/-- C6 as stated is false: with 11 new bot-executed observations
pending on one address (timestamps 1..11, watermark 0), the per-address
`limit(10)` keeps only the 10 newest, the watermark still advances to
11, and the observation at timestamp 1 — bot-executed and newer than
the watermark — is not reported in this cycle nor in the next one
against the same store: it is missed forever, refuting "none are missed
between poll cycles". -/
theorem polling_watermark_counterexample :
    ((⟨0, true, 1⟩ : Obs) ∈
        [⟨0, true, 1⟩, ⟨1, true, 2⟩, ⟨2, true, 3⟩, ⟨3, true, 4⟩,
         ⟨4, true, 5⟩, ⟨5, true, 6⟩, ⟨6, true, 7⟩, ⟨7, true, 8⟩,
         ⟨8, true, 9⟩, ⟨9, true, 10⟩, (⟨10, true, 11⟩ : Obs)]) ∧
    (⟨0, true, 1⟩ : Obs).bot = true ∧ 0 < (⟨0, true, 1⟩ : Obs).timestamp ∧
    (⟨0, true, 1⟩ : Obs) ∉ (checkForNewTrades 0
      [some [⟨0, true, 1⟩, ⟨1, true, 2⟩, ⟨2, true, 3⟩, ⟨3, true, 4⟩,
             ⟨4, true, 5⟩, ⟨5, true, 6⟩, ⟨6, true, 7⟩, ⟨7, true, 8⟩,
             ⟨8, true, 9⟩, ⟨9, true, 10⟩, ⟨10, true, 11⟩]]).1 ∧
    (⟨0, true, 1⟩ : Obs) ∉ (checkForNewTrades
      (checkForNewTrades 0
        [some [⟨0, true, 1⟩, ⟨1, true, 2⟩, ⟨2, true, 3⟩, ⟨3, true, 4⟩,
               ⟨4, true, 5⟩, ⟨5, true, 6⟩, ⟨6, true, 7⟩, ⟨7, true, 8⟩,
               ⟨8, true, 9⟩, ⟨9, true, 10⟩, ⟨10, true, 11⟩]]).2
      [some [⟨0, true, 1⟩, ⟨1, true, 2⟩, ⟨2, true, 3⟩, ⟨3, true, 4⟩,
             ⟨4, true, 5⟩, ⟨5, true, 6⟩, ⟨6, true, 7⟩, ⟨7, true, 8⟩,
             ⟨8, true, 9⟩, ⟨9, true, 10⟩, ⟨10, true, 11⟩]]).1 := by
  refine ⟨by decide, rfl, by decide, by decide, by decide⟩

/-- C6 (amended): across poll cycles, the watermark never decreases and
is advanced to the maximum timestamp gathered in the cycle; everything
emitted is strictly newer than the old watermark and is covered by the
new one, so nothing emitted in one cycle is ever emitted by a later
cycle; and — the amendment — an address's new bot-executed observations
are all reported provided at most 10 of them are pending for that
address in the cycle (the per-address query is capped at
`limit(10)`). -/
theorem polling_watermark_amended (last : ℕ)
    (db db' : List (Option (List Obs))) :
    last ≤ (checkForNewTrades last db).2 ∧
    (∀ t ∈ (checkForNewTrades last db).1,
        last < t.timestamp ∧ t.timestamp ≤ (checkForNewTrades last db).2) ∧
    ((checkForNewTrades last db).2 = last ∨
      ∃ t ∈ (checkForNewTrades last db).1,
        (checkForNewTrades last db).2 = t.timestamp) ∧
    (∀ t ∈ (checkForNewTrades last db).1,
        t ∉ (checkForNewTrades (checkForNewTrades last db).2 db').1) ∧
    (∀ coll, some coll ∈ db →
      (coll.filter (fun o => o.bot && decide (last < o.timestamp))).length ≤ 10 →
      ∀ o ∈ coll, o.bot = true → last < o.timestamp →
        o ∈ (checkForNewTrades last db).1) := by
  have hcover : ∀ t ∈ (checkForNewTrades last db).1,
      t.timestamp ≤ (checkForNewTrades last db).2 := by
    intro t ht
    have htr : t ∈ gatherTrades last db := mem_checkForNewTrades_iff.mp ht
    rw [checkForNewTrades_snd]
    have hne : (gatherTrades last db).length ≠ 0 :=
      List.length_pos.mpr (List.ne_nil_of_mem htr) |>.ne'
    rw [if_neg hne]
    exact mem_le_foldl_max htr last
  refine ⟨?_, ?_, ?_, ?_, ?_⟩
  · rw [checkForNewTrades_snd]
    by_cases h : (gatherTrades last db).length = 0
    · rw [if_pos h]
    · rw [if_neg h]
      exact le_foldl_max _ _
  · intro t ht
    exact ⟨mem_gatherTrades_lt (mem_checkForNewTrades_iff.mp ht), hcover t ht⟩
  · rw [checkForNewTrades_snd]
    by_cases h : (gatherTrades last db).length = 0
    · rw [if_pos h]
      exact Or.inl rfl
    · rw [if_neg h]
      rcases foldl_max_attained (gatherTrades last db) last with hm | ⟨o, ho, hm⟩
      · exact Or.inl hm
      · exact Or.inr ⟨o, mem_checkForNewTrades_iff.mpr ho, hm⟩
  · intro t ht hcontra
    have h1 : t.timestamp ≤ (checkForNewTrades last db).2 := hcover t ht
    have h2 : (checkForNewTrades last db).2 < t.timestamp :=
      mem_gatherTrades_lt (mem_checkForNewTrades_iff.mp hcontra)
    omega
  · intro coll hc hlen o ho hbot hts
    exact mem_checkForNewTrades_iff.mpr
      (mem_gatherTrades.mpr ⟨coll, hc, queryNew_complete hlen ho hbot hts⟩)

/-- Witness for C6 (amended) at a concrete cycle: one address with two
new bot observations at timestamps 5 and 9, watermark 3, second cycle
against the same store. -/
theorem polling_watermark_amended_witness :
    3 ≤ (checkForNewTrades 3 [some [⟨1, true, 5⟩, ⟨2, true, 9⟩]]).2 ∧
    (∀ t ∈ (checkForNewTrades 3 [some [⟨1, true, 5⟩, ⟨2, true, 9⟩]]).1,
        3 < t.timestamp ∧
          t.timestamp ≤ (checkForNewTrades 3 [some [⟨1, true, 5⟩, ⟨2, true, 9⟩]]).2) ∧
    (∀ t ∈ (checkForNewTrades 3 [some [⟨1, true, 5⟩, ⟨2, true, 9⟩]]).1,
        t ∉ (checkForNewTrades
          (checkForNewTrades 3 [some [⟨1, true, 5⟩, ⟨2, true, 9⟩]]).2
          [some [⟨1, true, 5⟩, ⟨2, true, 9⟩]]).1) ∧
    (⟨1, true, 5⟩ : Obs) ∈ (checkForNewTrades 3 [some [⟨1, true, 5⟩, ⟨2, true, 9⟩]]).1 := by
  have h := polling_watermark_amended 3 [some [⟨1, true, 5⟩, ⟨2, true, 9⟩]]
    [some [⟨1, true, 5⟩, ⟨2, true, 9⟩]]
  refine ⟨h.1, h.2.1, h.2.2.2.1, ?_⟩
  exact h.2.2.2.2 [⟨1, true, 5⟩, ⟨2, true, 9⟩] (by simp) (by decide)
    ⟨1, true, 5⟩ (by decide) rfl (by decide)

end CopyBot
